import Mathlib

/-!
Verification of the unikraft/governance tool against its specification.

The development shallowly embeds the Go sources: pure functions become Lean
functions, Go maps become association lists, the GitHub REST collaborator and
the third-party regex and glob engines become oracle parameters, and fallible
code returns `Except`.  Each section names the Go file and function it embeds.
-/

namespace Governance

/-! ## Association-list model of Go maps (string keyed) -/

/-- Lookup in an association list, the model of reading a Go map entry. -/
def mapGet (m : List (String × Int)) (k : String) : Option Int :=
  match m with
  | [] => none
  | p :: rest => if p.1 == k then some p.2 else mapGet rest k

/-- Update or insert in an association list, the model of `m[k] = v` on a Go map. -/
def mapSet (m : List (String × Int)) (k : String) (v : Int) : List (String × Int) :=
  match m with
  | [] => [(k, v)]
  | p :: rest => if p.1 == k then (k, v) :: rest else p :: mapSet rest k v

theorem mapGet_mapSet_self (m : List (String × Int)) (k : String) (v : Int) :
    mapGet (mapSet m k v) k = some v := by
  induction m with
  | nil => simp [mapGet, mapSet]
  | cons p rest ih =>
    by_cases h : p.1 = k
    · simp [mapGet, mapSet, h]
    · simpa [mapGet, mapSet, h] using ih

theorem mapGet_mapSet_ne (m : List (String × Int)) (k k' : String) (v : Int)
    (h : k' ≠ k) : mapGet (mapSet m k v) k' = mapGet m k' := by
  induction m with
  | nil => simp [mapGet, mapSet, Ne.symm h]
  | cons p rest ih =>
    by_cases hp : p.1 = k
    · simp [mapGet, mapSet, hp, Ne.symm h]
    · by_cases hp' : p.1 = k'
      · simp [mapGet, mapSet, hp, hp', h]
      · simpa [mapGet, mapSet, hp, hp'] using ih

/-! ## Label matcher — `internal/label/label.go`

`AppliesTo` is embedded with the third-party `doublestar.Match` glob engine
abstracted as the oracle `globMatch` (only its boolean result is used by the
source; the error result is discarded there). -/

/-- The YAML-backed fields of `label.Label` that `AppliesTo` reads. -/
structure Label where
  ApplyOnPrMatchRepos : List String
  ApplyOnPrMatchPaths : List String

/-- Embedding of `(*Label).AppliesTo` from `internal/label/label.go`.
The `goto checkMatchPaths` control flow is rendered as nested conditionals:
a non-empty repo filter that does not contain `repo` returns false before
any path pattern is consulted. -/
def Label.AppliesTo (globMatch : String → String → Bool) (l : Label)
    (repo file : String) : Bool :=
  if !l.ApplyOnPrMatchRepos.isEmpty && !l.ApplyOnPrMatchRepos.contains repo then
    false
  else if !l.ApplyOnPrMatchPaths.isEmpty then
    l.ApplyOnPrMatchPaths.any (fun p => globMatch p file)
  else
    false

/-- Claim C4: `AppliesTo(repo, file)` is true exactly when the repo filter is
empty or contains `repo`, and the path filter is non-empty with at least one
glob-matching pattern; in particular it is false for an empty path filter and
false when a non-empty repo filter excludes `repo`. -/
theorem AppliesTo_iff (globMatch : String → String → Bool) (l : Label)
    (repo file : String) :
    (l.AppliesTo globMatch repo file = true ↔
      ((l.ApplyOnPrMatchRepos = [] ∨ repo ∈ l.ApplyOnPrMatchRepos) ∧
        (l.ApplyOnPrMatchPaths ≠ [] ∧
          ∃ p ∈ l.ApplyOnPrMatchPaths, globMatch p file = true))) ∧
    (l.ApplyOnPrMatchPaths = [] → l.AppliesTo globMatch repo file = false) ∧
    (l.ApplyOnPrMatchRepos ≠ [] → repo ∉ l.ApplyOnPrMatchRepos →
      l.AppliesTo globMatch repo file = false) := by
  refine ⟨?_, ?_, ?_⟩
  · unfold Label.AppliesTo
    by_cases hr : l.ApplyOnPrMatchRepos = []
    · by_cases hp : l.ApplyOnPrMatchPaths = [] <;>
        simp [hr, hp, List.isEmpty_iff, List.any_eq_true]
    · by_cases hc : repo ∈ l.ApplyOnPrMatchRepos
      · by_cases hp : l.ApplyOnPrMatchPaths = [] <;>
          simp [hr, hp, hc, List.isEmpty_iff, List.any_eq_true]
      · simp [hr, hc, List.isEmpty_iff]
  · intro hp
    unfold Label.AppliesTo
    by_cases hr : l.ApplyOnPrMatchRepos = [] <;>
      by_cases hc : repo ∈ l.ApplyOnPrMatchRepos <;>
        simp [hr, hc, hp, List.isEmpty_iff]
  · intro hr hc
    unfold Label.AppliesTo
    simp [hr, hc, List.isEmpty_iff]

/-- Claim C4 witness: the empty-path-filter hypothesis discharged at a
concrete label whose repo filter matches. -/
theorem AppliesTo_iff_witness :
    Label.AppliesTo (fun _ _ => true) ⟨[("unikraft")], []⟩ ("unikraft") ("Makefile") = false :=
  (AppliesTo_iff (fun _ _ => true) ⟨[("unikraft")], []⟩ ("unikraft") ("Makefile")).2.1 rfl

/-! ## Go string helpers

The sources only split and join on the single character `-`
(`strings.Split(s, "-")`, `strings.Join(parts, "-")`, `strings.Contains(s, "-")`),
so we embed those operations by structural recursion over the character list of
the string. -/

/-- Embedding of `strings.Split(s, sep)` for a one-character separator. -/
def splitCh (c : Char) : List Char → List (List Char)
  | [] => [[]]
  | x :: xs =>
    if x = c then [] :: splitCh c xs
    else
      match splitCh c xs with
      | r :: rs => (x :: r) :: rs
      | [] => [[x]]

/-- Embedding of `strings.Join(parts, sep)` for a one-character separator. -/
def joinCh (c : Char) : List (List Char) → List Char
  | [] => []
  | [x] => x
  | x :: y :: xs => x ++ c :: joinCh c (y :: xs)

/-! ## Team full names — `internal/team/team.go`

`TeamTypes` (lines 48-54) deliberately omits `misc`; the name-normalisation
step of `Fullname` (lines 88-99) strips a recognised `type-` prefix from the
name and adopts it as the team type.  We embed `Fullname` for a team whose
memoised `fullname` field is still empty (the claims concern freshly loaded
teams), as a pure function of the `Type` and `Name` fields it reads. -/

/-- The `TeamTypes` list of `internal/team/team.go` (`misc` is not listed). -/
def teamTypes : List String := [("sig"), ("maintainers"), ("reviewers")]

/-- The name-normalisation step shared by `(*Team).Fullname`: when the name
contains a `-` and its first segment is a recognised team type, the remainder
becomes the name and that segment becomes the type. -/
def Team.parseName (ty n : String) : String × String :=
  if n.data.contains '-' then
    let split := splitCh '-' n.data
    let n2 : String := ⟨joinCh '-' split.tail⟩
    match teamTypes.find? (fun t => ((⟨split.headD []⟩ : String)) == t) with
    | some t => (t, n2)
    | none => (ty, n)
  else (ty, n)

/-- Embedding of `(*Team).Fullname` from `internal/team/team.go`: normalise the
name, then prefix the type unless the type is `misc`. -/
def Team.Fullname (ty n : String) : String :=
  let p := Team.parseName ty n
  if p.1 == ("misc") then p.2 else p.1 ++ ("-") ++ p.2

/-- Claim C9: team full-name derivation prefixes the (post-parse) type unless
it is `misc`; a team named `sig-foo` with no explicit type parses to type
`sig` and short name `foo` with full name `sig-foo`; a `misc` team named
`bar` yields `bar`. -/
theorem Team_Fullname_derivation :
    (∀ ty n ty' n' : String, Team.parseName ty n = (ty', n') →
      Team.Fullname ty n = if ty' = ("misc") then n' else ty' ++ ("-") ++ n') ∧
    Team.parseName ("") ("sig-foo") = (("sig"), ("foo")) ∧
    Team.Fullname ("") ("sig-foo") = ("sig-foo") ∧
    Team.Fullname ("misc") ("bar") = ("bar") ∧
    (∀ ty n : String, n.data.contains '-' = false →
      Team.Fullname ty n = if ty = ("misc") then n else ty ++ ("-") ++ n) := by
  refine ⟨?_, by decide, by decide, by decide, ?_⟩
  · intro ty n ty' n' h
    unfold Team.Fullname
    rw [h]
    by_cases hm : ty' = ("misc") <;> simp [hm]
  · intro ty n h
    unfold Team.Fullname Team.parseName
    rw [h]
    by_cases hm : ty = ("misc") <;> simp [hm]

/-- Claim C9 witness: the parse-equation hypothesis of the first conjunct
discharged at the concrete team named `sig-foo` with no explicit type. -/
theorem Team_Fullname_derivation_witness :
    Team.Fullname ("") ("sig-foo") = ("sig-foo") :=
  Team_Fullname_derivation.1 ("") ("sig-foo") ("sig") ("foo") (by decide)

/-! ## Repository full names — `internal/repo/repo.go`

Unlike teams, `RepoTypes` (lines 55-63) includes `misc`, and
`(*Repository).Fullname` (lines 98-123) leaves the name unprefixed for both
`misc` and `core` repositories. -/

/-- The `RepoTypes` list of `internal/repo/repo.go`. -/
def repoTypes : List String := [("app"), ("lib"), ("plat"), ("core"), ("misc")]

/-- The name-normalisation step of `(*Repository).Fullname`, identical in shape
to the team version but over `RepoTypes`. -/
def Repository.parseName (ty n : String) : String × String :=
  if n.data.contains '-' then
    let split := splitCh '-' n.data
    let n2 : String := ⟨joinCh '-' split.tail⟩
    match repoTypes.find? (fun t => ((⟨split.headD []⟩ : String)) == t) with
    | some t => (t, n2)
    | none => (ty, n)
  else (ty, n)

/-- Embedding of `(*Repository).Fullname` from `internal/repo/repo.go` (for a
repository whose memoised `fullname` field is still empty): normalise the
name, then prefix the type unless the type is `misc` or `core`. -/
def Repository.Fullname (ty n : String) : String :=
  let p := Repository.parseName ty n
  if p.1 == ("misc") || p.1 == ("core") then p.2 else p.1 ++ ("-") ++ p.2

/-- Embedding of `(*Repository).NameEquals` from `internal/repo/repo.go`
(lines 84-96).  It reads only the `Name` field `n` of the repository. -/
def Repository.NameEquals (n name : String) : Bool :=
  name == n || repoTypes.any (fun t => (t ++ ("-") ++ n) == name)

/-- Claim C8 counterexample: for the `core` repository named `unikraft`,
`Fullname` returns the bare name, not `core-unikraft`, although `core` is not
`misc` — the code exempts `core` as well as `misc` from prefixing. -/
theorem Repository_Fullname_core_not_prefixed :
    Repository.Fullname ("core") ("unikraft") = ("unikraft") ∧
    Repository.Fullname ("core") ("unikraft") ≠ ("core") ++ ("-") ++ ("unikraft") := by
  constructor
  · decide
  · decide

/-- Claim C8 (amended): `NameEquals` tolerates the unprefixed and every
type-prefixed form, and `Fullname` prefixes the (post-parse) type joined by a
hyphen unless that type is `misc` or `core`, which stay unprefixed. -/
theorem Repository_Fullname_NameEquals_amended (ty n : String) (hty : ty ∈ repoTypes) :
    Repository.NameEquals n n = true ∧
    Repository.NameEquals n (ty ++ ("-") ++ n) = true ∧
    (∀ ty' n' : String, Repository.parseName ty n = (ty', n') →
      Repository.Fullname ty n =
        if ty' = ("misc") ∨ ty' = ("core") then n' else ty' ++ ("-") ++ n') ∧
    (n.data.contains '-' = false →
      Repository.Fullname ty n =
        if ty = ("misc") ∨ ty = ("core") then n else ty ++ ("-") ++ n) := by
  refine ⟨?_, ?_, ?_, ?_⟩
  · simp [Repository.NameEquals]
  · apply Bool.or_eq_true_iff.mpr
    right
    exact List.any_eq_true.mpr ⟨ty, hty, by simp⟩
  · intro ty' n' h
    unfold Repository.Fullname
    rw [h]
    by_cases hm : ty' = ("misc") <;> by_cases hc : ty' = ("core") <;>
      simp [hm, hc]
  · intro h
    unfold Repository.Fullname Repository.parseName
    rw [h]
    by_cases hm : ty = ("misc") <;> by_cases hc : ty = ("core") <;>
      simp [hm, hc]

/-- Claim C8 witness: the amended theorem instantiated at the `lib` repository
named `lwip`, every hypothesis discharged concretely. -/
theorem Repository_Fullname_NameEquals_amended_witness :
    Repository.NameEquals ("lwip") (("lib") ++ ("-") ++ ("lwip")) = true :=
  (Repository_Fullname_NameEquals_amended ("lib") ("lwip") (by decide)).2.1

/-! ## Workload tracker — `cmd/governctl/pr/sync` and the `pair` package

`RankByWorkload` converts a `map[string]int` to a list of key/value pairs and
sorts it ascending by value with `sort.Sort` (`Less` compares `Value`).  We
model the map as an association list, its (unspecified) iteration order as the
list order, and `sort.Sort` as insertion sort — the claims only rely on the
head of the result carrying a minimal value, which holds for any correct sort
regardless of iteration order or tie-breaking. -/

/-- The `pair.Pair` record of the `pair` package. -/
structure Pair where
  Key : String
  Value : Int
  deriving DecidableEq

/-- Ascending insertion by `Value`, the effect of `sort.Sort` with
`PairList.Less` comparing `Value`. -/
def insertPair (p : Pair) : List Pair → List Pair
  | [] => [p]
  | q :: qs => if p.Value ≤ q.Value then p :: q :: qs else q :: insertPair p qs

/-- Sorting a pair list ascending by `Value`. -/
def sortPairs : List Pair → List Pair
  | [] => []
  | p :: ps => insertPair p (sortPairs ps)

/-- Embedding of `pair.RankByWorkload`: dump the map into a pair list and sort
it ascending by value. -/
def RankByWorkload (m : List (String × Int)) : List Pair :=
  sortPairs (m.map (fun p => ⟨p.1, p.2⟩))

theorem mem_insertPair (p x : Pair) (l : List Pair) :
    x ∈ insertPair p l ↔ x = p ∨ x ∈ l := by
  induction l with
  | nil => simp [insertPair]
  | cons q qs ih =>
    by_cases h : p.Value ≤ q.Value
    · simp [insertPair, h]
    · simp [insertPair, h, ih]
      tauto

theorem mem_sortPairs (x : Pair) (l : List Pair) :
    x ∈ sortPairs l ↔ x ∈ l := by
  induction l with
  | nil => simp [sortPairs]
  | cons p ps ih => simp [sortPairs, mem_insertPair, ih]

theorem headD_insertPair (p : Pair) (l : List Pair) (d : Pair) :
    (insertPair p l).headD d =
      match l with
      | [] => p
      | q :: _ => if p.Value ≤ q.Value then p else q := by
  cases l with
  | nil => simp [insertPair]
  | cons q qs => by_cases h : p.Value ≤ q.Value <;> simp [insertPair, h]

theorem sortPairs_head_le (l : List Pair) (d : Pair) (x : Pair) (hx : x ∈ l) :
    ((sortPairs l).headD d).Value ≤ x.Value := by
  induction l generalizing x with
  | nil => simp at hx
  | cons p ps ih =>
    simp only [sortPairs, headD_insertPair]
    cases hsp : sortPairs ps with
    | nil =>
      have hps : ps = [] := by
        cases ps with
        | nil => rfl
        | cons a as =>
          exfalso
          have hmem : a ∈ sortPairs (a :: as) := (mem_sortPairs a (a :: as)).mpr (by simp)
          rw [hsp] at hmem
          simp at hmem
      subst hps
      simp at hx
      simp [hx]
    | cons q qs =>
      have hq_le : ∀ z ∈ ps, q.Value ≤ z.Value := by
        intro z hz
        have := ih z hz
        rw [hsp] at this
        simpa using this
      rcases List.mem_cons.mp hx with hx | hx
      · subst hx
        by_cases h : x.Value ≤ q.Value <;> (simp [h]; try omega)
      · have hz := hq_le x hx
        by_cases h : p.Value ≤ q.Value <;> (simp [h]; try omega)

theorem sortPairs_headD_mem (l : List Pair) (d : Pair) (h : l ≠ []) :
    (sortPairs l).headD d ∈ l := by
  have hne : sortPairs l ≠ [] := by
    cases l with
    | nil => exact absurd rfl h
    | cons p ps =>
      simp only [sortPairs]
      cases hsp : sortPairs ps with
      | nil => simp [insertPair]
      | cons q qs =>
        by_cases hle : p.Value ≤ q.Value <;> simp [insertPair, hle]
  rw [← mem_sortPairs]
  cases hs : sortPairs l with
  | nil => exact absurd hs hne
  | cons a as => simp

/-- Per-user count with users absent from the workload map treated as 0
(the Go code reads a missing `map[string]int` entry as the zero value). -/
def count (wl : List (String × Int)) (u : String) : Int :=
  (mapGet wl u).getD 0

/-- The body of the first loop of `popLeastStressedMaintainer` acting on the
workload map: a candidate not yet present is entered with count 0. -/
def initWl (wl : List (String × Int)) (u : String) : List (String × Int) :=
  match mapGet wl u with
  | some _ => wl
  | none => mapSet wl u 0

/-- The first loop of `popLeastStressedMaintainer` (`cmd/governctl/pr/sync`):
walk the candidate subset, enter absent candidates into the workload map at 0,
and collect every candidate's current count into the local map `m`. -/
def initLoop (wl m : List (String × Int)) :
    List String → List (String × Int) × List (String × Int)
  | [] => (wl, m)
  | u :: rest =>
    let wl2 := initWl wl u
    initLoop wl2 (mapSet m u ((mapGet wl2 u).getD 0)) rest

theorem count_initWl (wl : List (String × Int)) (u0 u : String) :
    count (initWl wl u0) u = count wl u := by
  unfold initWl
  cases h : mapGet wl u0 with
  | some v => rfl
  | none =>
    by_cases he : u = u0
    · subst he
      simp [count, mapGet_mapSet_self, h]
    · simp [count, mapGet_mapSet_ne wl u0 u 0 he]

theorem initLoop_fst_count (subset : List String) (wl m : List (String × Int))
    (u : String) : count (initLoop wl m subset).1 u = count wl u := by
  induction subset generalizing wl m with
  | nil => rfl
  | cons u0 rest ih => simpa [initLoop, ih] using count_initWl wl u0 u

theorem initLoop_snd_mapGet (subset : List String) (wl m : List (String × Int))
    (u : String) :
    mapGet (initLoop wl m subset).2 u =
      if u ∈ subset then some (count wl u) else mapGet m u := by
  induction subset generalizing wl m with
  | nil => simp [initLoop]
  | cons u0 rest ih =>
    simp only [initLoop]
    rw [ih]
    by_cases hr : u ∈ rest
    · simp [hr, count_initWl wl u0 u]
    · by_cases he : u = u0
      · subst he
        have hc : (mapGet (initWl wl u) u).getD 0 = count wl u := by
          simpa [count] using count_initWl wl u u
        simp [hr, mapGet_mapSet_self, hc]
      · simp [hr, he, mapGet_mapSet_ne m u0 u _ he]

theorem mem_mapSet (m : List (String × Int)) (k0 k : String) (v0 v : Int)
    (h : (k, v) ∈ mapSet m k0 v0) : (k = k0 ∧ v = v0) ∨ (k, v) ∈ m := by
  induction m with
  | nil => simp [mapSet] at h; tauto
  | cons p rest ih =>
    by_cases hp : p.1 = k0
    · simp [mapSet, hp] at h
      rcases h with ⟨h1, h2⟩ | h
      · exact Or.inl ⟨h1, h2⟩
      · exact Or.inr (by simp [h])
    · simp [mapSet, hp] at h
      rcases h with h | h
      · exact Or.inr (by simp [h])
      · rcases ih h with h' | h'
        · exact Or.inl h'
        · exact Or.inr (by simp [h'])

theorem mem_initLoop_snd (subset : List String) (wl m : List (String × Int))
    (k : String) (v : Int) (h : (k, v) ∈ (initLoop wl m subset).2) :
    (k ∈ subset ∧ v = count wl k) ∨ (k, v) ∈ m := by
  induction subset generalizing wl m with
  | nil => exact Or.inr h
  | cons u0 rest ih =>
    simp only [initLoop] at h
    rcases ih _ _ h with ⟨hk, hv⟩ | hmem
    · exact Or.inl ⟨by simp [hk], by rw [hv, count_initWl]⟩
    · rcases mem_mapSet _ _ _ _ _ hmem with ⟨hk, hv⟩ | hmem'
      · refine Or.inl ⟨by simp [hk], ?_⟩
        rw [hv, hk]
        simpa [count] using count_initWl wl u0 u0
      · exact Or.inr hmem'

theorem mapGet_eq_some_mem (m : List (String × Int)) (k : String) (v : Int)
    (h : mapGet m k = some v) : (k, v) ∈ m := by
  induction m with
  | nil => simp [mapGet] at h
  | cons p rest ih =>
    by_cases hp : p.1 = k
    · simp [mapGet, hp] at h
      have hpe : p = (k, v) := by
        cases p
        simp_all
      rw [← hpe]
      exact List.mem_cons_self _ _
    · simp [mapGet, hp] at h
      exact List.mem_cons_of_mem _ (ih h)

/-- Embedding of `(*SyncPR).popLeastStressedMaintainer`
(`cmd/governctl/pr/sync/sync.go`): initialise absent candidates to zero,
collect the candidates' counts, rank them by workload, take the first
(least-loaded) key and increment its workload count. -/
def popLeastStressedMaintainer (wl : List (String × Int)) (subset : List String) :
    String × List (String × Int) :=
  let p := initLoop wl [] subset
  let sorted := RankByWorkload p.2
  let least := (sorted.headD ⟨("" : String), 0⟩).Key
  (least, mapSet p.1 least ((mapGet p.1 least).getD 0 + 1))

/-- Embedding of `(*SyncPR).popLeastStressedReviewer`, which duplicates the
maintainer variant verbatim over the reviewer workload map. -/
def popLeastStressedReviewer (wl : List (String × Int)) (subset : List String) :
    String × List (String × Int) :=
  let p := initLoop wl [] subset
  let sorted := RankByWorkload p.2
  let least := (sorted.headD ⟨("" : String), 0⟩).Key
  (least, mapSet p.1 least ((mapGet p.1 least).getD 0 + 1))

/-- Claim C2: on a non-empty candidate list, `popLeastStressedMaintainer`
returns a candidate whose workload count (absent users counting 0) is minimal
among the candidates, increments exactly that user's count by one leaving all
other counts unchanged, `popLeastStressedReviewer` computes the same function,
and with workloads alice=2, bob=0, the pick is bob. -/
theorem popLeastStressedMaintainer_minimal (wl : List (String × Int))
    (subset : List String) (h : subset ≠ []) :
    ((popLeastStressedMaintainer wl subset).1 ∈ subset) ∧
    (∀ u ∈ subset,
      count wl (popLeastStressedMaintainer wl subset).1 ≤ count wl u) ∧
    (count (popLeastStressedMaintainer wl subset).2
        (popLeastStressedMaintainer wl subset).1 =
      count wl (popLeastStressedMaintainer wl subset).1 + 1) ∧
    (∀ u, u ≠ (popLeastStressedMaintainer wl subset).1 →
      count (popLeastStressedMaintainer wl subset).2 u = count wl u) ∧
    (∀ wl' subset', popLeastStressedReviewer wl' subset' =
      popLeastStressedMaintainer wl' subset') ∧
    (popLeastStressedMaintainer [(("alice"), 2), (("bob"), 0)]
      [("alice"), ("bob")]).1 = ("bob") := by
  obtain ⟨s0, rest0, hsub⟩ := List.exists_cons_of_ne_nil h
  have hget : ∀ u ∈ subset, mapGet (initLoop wl [] subset).2 u = some (count wl u) := by
    intro u hu
    rw [initLoop_snd_mapGet]
    simp [hu]
  have hne2 : (initLoop wl [] subset).2 ≠ [] := by
    intro hnil
    have hx := hget s0 (by rw [hsub]; simp)
    rw [hnil] at hx
    simp [mapGet] at hx
  have hplne : ((initLoop wl [] subset).2).map (fun p => (⟨p.1, p.2⟩ : Pair)) ≠ [] := by
    simpa using hne2
  have hdmem := sortPairs_headD_mem _ (⟨("" : String), 0⟩ : Pair) hplne
  obtain ⟨q, hq, hqe⟩ := List.mem_map.mp hdmem
  rcases mem_initLoop_snd subset wl [] q.1 q.2 (by simpa using hq) with ⟨hk, hv⟩ | habs
  · have hkey : ((sortPairs (((initLoop wl [] subset).2).map
        (fun p => (⟨p.1, p.2⟩ : Pair)))).headD (⟨("" : String), 0⟩ : Pair)).Key = q.1 := by
      rw [← hqe]
    have hval : ((sortPairs (((initLoop wl [] subset).2).map
        (fun p => (⟨p.1, p.2⟩ : Pair)))).headD (⟨("" : String), 0⟩ : Pair)).Value = q.2 := by
      rw [← hqe]
    have hpop : popLeastStressedMaintainer wl subset =
        (q.1, mapSet (initLoop wl [] subset).1 q.1
          ((mapGet (initLoop wl [] subset).1 q.1).getD 0 + 1)) := by
      show (((sortPairs (((initLoop wl [] subset).2).map
          (fun p => (⟨p.1, p.2⟩ : Pair)))).headD (⟨("" : String), 0⟩ : Pair)).Key,
          mapSet (initLoop wl [] subset).1
            ((sortPairs (((initLoop wl [] subset).2).map
              (fun p => (⟨p.1, p.2⟩ : Pair)))).headD (⟨("" : String), 0⟩ : Pair)).Key
            ((mapGet (initLoop wl [] subset).1
              ((sortPairs (((initLoop wl [] subset).2).map
                (fun p => (⟨p.1, p.2⟩ : Pair)))).headD (⟨("" : String), 0⟩ : Pair)).Key).getD 0
              + 1)) = _
      rw [hkey]
    have hfst : count (initLoop wl [] subset).1 q.1 = count wl q.1 :=
      initLoop_fst_count subset wl [] q.1
    refine ⟨?_, ?_, ?_, ?_, fun _ _ => rfl, by decide⟩
    · rw [hpop]
      exact hk
    · intro u hu
      have humem : (⟨u, count wl u⟩ : Pair) ∈
          ((initLoop wl [] subset).2).map (fun p => (⟨p.1, p.2⟩ : Pair)) :=
        List.mem_map.mpr ⟨(u, count wl u), mapGet_eq_some_mem _ _ _ (hget u hu), rfl⟩
      have hle := sortPairs_head_le _ (⟨("" : String), 0⟩ : Pair) _ humem
      rw [hval] at hle
      rw [hpop]
      simp only []
      rw [← hv]
      simpa using hle
    · rw [hpop]
      simp only [count, mapGet_mapSet_self, Option.getD_some]
      simp only [count] at hfst
      rw [hfst]
    · intro u hu
      rw [hpop] at hu ⊢
      simp only [] at hu
      simp only [count, mapGet_mapSet_ne _ _ _ _ hu]
      exact initLoop_fst_count subset wl [] u
  · simp at habs

/-- Claim C2 witness: the non-emptiness hypothesis discharged at the concrete
workload map alice=2, bob=0 with candidates alice and bob. -/
theorem popLeastStressedMaintainer_minimal_witness :
    (popLeastStressedMaintainer [(("alice"), 2), (("bob"), 0)]
      [("alice"), ("bob")]).1 = ("bob") :=
  (popLeastStressedMaintainer_minimal [(("alice"), 2), (("bob"), 0)]
    [("alice"), ("bob")] (by decide)).2.2.2.2.2

/-! ## Team membership reconciliation — `utils/difference.go` and
`SyncTeamMembers` in `internal/ghapi/ghapi.go`

`SyncTeamMembers` lists the team's current members (taken here as the input
`current`), removes `current - desired`, then adds `desired - current`,
returning on the first failing call with an error naming that user.  The
remote removal/addition calls are modelled as a trace of `SyncCall`s together
with per-user failure oracles. -/

/-- Embedding of `utils.Difference`: the elements of `a`, in order, that do
not occur in `b`. -/
def Difference (a b : List String) : List String :=
  a.filter (fun x => !(b.contains x))

/-- One remote membership call issued by `SyncTeamMembers`. -/
inductive SyncCall where
  | removeMember (user : String)
  | addMember (user : String)
  deriving DecidableEq

/-- The error returned by `SyncTeamMembers`, naming the user whose call
failed (`could not remove user: ...` / `could not add user: ...`). -/
inductive SyncErr where
  | removeFailed (user : String)
  | addFailed (user : String)
  deriving DecidableEq

/-- The removal loop of `SyncTeamMembers`: each removal call is issued (and so
appears in the trace) before its error is checked; the loop stops at the first
failure. -/
def runRemovals (removeFails : String → Bool) :
    List String → List SyncCall × Option SyncErr
  | [] => ([], none)
  | u :: rest =>
    if removeFails u then ([SyncCall.removeMember u], some (SyncErr.removeFailed u))
    else
      let r := runRemovals removeFails rest
      (SyncCall.removeMember u :: r.1, r.2)

/-- The addition loop of `SyncTeamMembers`. -/
def runAdds (addFails : String → Bool) :
    List String → List SyncCall × Option SyncErr
  | [] => ([], none)
  | u :: rest =>
    if addFails u then ([SyncCall.addMember u], some (SyncErr.addFailed u))
    else
      let r := runAdds addFails rest
      (SyncCall.addMember u :: r.1, r.2)

/-- Embedding of `(*GithubClient).SyncTeamMembers` from
`internal/ghapi/ghapi.go`: with `current` the listed remote members and
`members` the desired list, remove `Difference(current, members)` and then add
`Difference(members, current)`, stopping at the first failing call. -/
def SyncTeamMembers (current members : List String)
    (removeFails addFails : String → Bool) : List SyncCall × Option SyncErr :=
  match (runRemovals removeFails (Difference current members)).2 with
  | some e => ((runRemovals removeFails (Difference current members)).1, some e)
  | none =>
    ((runRemovals removeFails (Difference current members)).1 ++
      (runAdds addFails (Difference members current)).1,
     (runAdds addFails (Difference members current)).2)

theorem mem_Difference (a b : List String) (u : String) :
    u ∈ Difference a b ↔ u ∈ a ∧ u ∉ b := by
  simp [Difference, List.mem_filter]

theorem runRemovals_spec (removeFails : String → Bool) (l : List String) :
    (∃ rest, l.map SyncCall.removeMember = (runRemovals removeFails l).1 ++ rest) ∧
    ((runRemovals removeFails l).2 = none →
      (runRemovals removeFails l).1 = l.map SyncCall.removeMember) ∧
    (∀ u, (runRemovals removeFails l).2 = some (SyncErr.removeFailed u) →
      removeFails u = true ∧ u ∈ l) ∧
    (∀ u, (runRemovals removeFails l).2 ≠ some (SyncErr.addFailed u)) := by
  induction l with
  | nil => exact ⟨⟨[], rfl⟩, fun _ => rfl, fun u hu => by simp [runRemovals] at hu,
      fun u hu => by simp [runRemovals] at hu⟩
  | cons x xs ih =>
    by_cases hx : removeFails x
    · refine ⟨⟨xs.map SyncCall.removeMember, by simp [runRemovals, hx]⟩, ?_, ?_, ?_⟩
      · intro hnone
        simp [runRemovals, hx] at hnone
      · intro u hu
        simp [runRemovals, hx] at hu
        subst hu
        exact ⟨hx, by simp⟩
      · intro u hu
        simp [runRemovals, hx] at hu
    · obtain ⟨⟨rest, hrest⟩, hnone, hfail, hnotadd⟩ := ih
      refine ⟨⟨rest, by simp [runRemovals, hx]; exact hrest⟩, ?_, ?_, ?_⟩
      · intro h2
        simp [runRemovals, hx] at h2 ⊢
        exact hnone h2
      · intro u hu
        simp [runRemovals, hx] at hu
        obtain ⟨h1, h2⟩ := hfail u hu
        exact ⟨h1, by simp [h2]⟩
      · intro u
        simp [runRemovals, hx]
        exact hnotadd u

theorem runAdds_spec (addFails : String → Bool) (l : List String) :
    (∃ rest, l.map SyncCall.addMember = (runAdds addFails l).1 ++ rest) ∧
    ((runAdds addFails l).2 = none →
      (runAdds addFails l).1 = l.map SyncCall.addMember) ∧
    (∀ u, (runAdds addFails l).2 = some (SyncErr.addFailed u) →
      addFails u = true ∧ u ∈ l) ∧
    (∀ u, (runAdds addFails l).2 ≠ some (SyncErr.removeFailed u)) := by
  induction l with
  | nil => exact ⟨⟨[], rfl⟩, fun _ => rfl, fun u hu => by simp [runAdds] at hu,
      fun u hu => by simp [runAdds] at hu⟩
  | cons x xs ih =>
    by_cases hx : addFails x
    · refine ⟨⟨xs.map SyncCall.addMember, by simp [runAdds, hx]⟩, ?_, ?_, ?_⟩
      · intro hnone
        simp [runAdds, hx] at hnone
      · intro u hu
        simp [runAdds, hx] at hu
        subst hu
        exact ⟨hx, by simp⟩
      · intro u hu
        simp [runAdds, hx] at hu
    · obtain ⟨⟨rest, hrest⟩, hnone, hfail, hnotrem⟩ := ih
      refine ⟨⟨rest, by simp [runAdds, hx]; exact hrest⟩, ?_, ?_, ?_⟩
      · intro h2
        simp [runAdds, hx] at h2 ⊢
        exact hnone h2
      · intro u hu
        simp [runAdds, hx] at hu
        obtain ⟨h1, h2⟩ := hfail u hu
        exact ⟨h1, by simp [h2]⟩
      · intro u
        simp [runAdds, hx]
        exact hnotrem u

theorem runRemovals_fail_of_mem (removeFails : String → Bool) (l : List String)
    (v : String) (hv : v ∈ l) (hvf : removeFails v = true) :
    (runRemovals removeFails l).2 ≠ none := by
  induction l with
  | nil => simp at hv
  | cons y ys ih =>
    by_cases hy : removeFails y
    · simp [runRemovals, hy]
    · rcases List.mem_cons.mp hv with h | h
      · subst h
        rw [hvf] at hy
        exact absurd rfl hy
      · simpa [runRemovals, hy] using ih h

/-- Claim C6: `SyncTeamMembers` is set reconciliation.  The full plan removes
exactly `current - desired` and then adds exactly `desired - current` (all
removals before any addition); the issued trace is always a prefix of that
plan, equals it when no error is returned, and stops with an error naming the
failing user otherwise (no compensating calls are ever issued).  Under
duplicate-free inputs each user is removed/added exactly once. -/
theorem SyncTeamMembers_reconciliation (current members : List String)
    (removeFails addFails : String → Bool) :
    (∀ u, SyncCall.removeMember u ∈
        (Difference current members).map SyncCall.removeMember ↔
          u ∈ current ∧ u ∉ members) ∧
    (∀ u, SyncCall.addMember u ∈
        (Difference members current).map SyncCall.addMember ↔
          u ∈ members ∧ u ∉ current) ∧
    (∃ rest, (Difference current members).map SyncCall.removeMember ++
        (Difference members current).map SyncCall.addMember =
      (SyncTeamMembers current members removeFails addFails).1 ++ rest) ∧
    ((SyncTeamMembers current members removeFails addFails).2 = none →
      (SyncTeamMembers current members removeFails addFails).1 =
        (Difference current members).map SyncCall.removeMember ++
          (Difference members current).map SyncCall.addMember) ∧
    (∀ u, (SyncTeamMembers current members removeFails addFails).2 =
        some (SyncErr.removeFailed u) →
      removeFails u = true ∧ u ∈ current ∧ u ∉ members) ∧
    (∀ u, (SyncTeamMembers current members removeFails addFails).2 =
        some (SyncErr.addFailed u) →
      addFails u = true ∧ u ∈ members ∧ u ∉ current ∧
        (∀ v ∈ Difference current members, removeFails v = false)) ∧
    (current.Nodup → (Difference current members).Nodup) ∧
    (members.Nodup → (Difference members current).Nodup) := by
  obtain ⟨⟨restR, hrestR⟩, hnoneR, hfailR, hnotaddR⟩ :=
    runRemovals_spec removeFails (Difference current members)
  obtain ⟨⟨restA, hrestA⟩, hnoneA, hfailA, hnotremA⟩ :=
    runAdds_spec addFails (Difference members current)
  have hSTsome : ∀ e, (runRemovals removeFails (Difference current members)).2 = some e →
      SyncTeamMembers current members removeFails addFails =
        ((runRemovals removeFails (Difference current members)).1, some e) := by
    intro e he
    unfold SyncTeamMembers
    rw [he]
  have hSTnone : (runRemovals removeFails (Difference current members)).2 = none →
      SyncTeamMembers current members removeFails addFails =
        ((runRemovals removeFails (Difference current members)).1 ++
          (runAdds addFails (Difference members current)).1,
         (runAdds addFails (Difference members current)).2) := by
    intro he
    unfold SyncTeamMembers
    rw [he]
  refine ⟨?_, ?_, ?_, ?_, ?_, ?_, ?_, ?_⟩
  · intro u
    simp [mem_Difference]
  · intro u
    simp [mem_Difference]
  · cases he : (runRemovals removeFails (Difference current members)).2 with
    | some e =>
      refine ⟨restR ++ (Difference members current).map SyncCall.addMember, ?_⟩
      rw [hSTsome e he, hrestR]
      simp
    | none =>
      refine ⟨restA, ?_⟩
      rw [hSTnone he, hnoneR he, hrestA]
      simp
  · intro hnone
    cases he : (runRemovals removeFails (Difference current members)).2 with
    | some e =>
      rw [hSTsome e he] at hnone
      simp at hnone
    | none =>
      rw [hSTnone he] at hnone ⊢
      rw [hnoneR he]
      simp only [] at hnone
      rw [hnoneA hnone]
  · intro u hu
    cases he : (runRemovals removeFails (Difference current members)).2 with
    | some e =>
      rw [hSTsome e he] at hu
      simp at hu
      rw [hu] at he
      obtain ⟨h1, h2⟩ := hfailR u he
      rw [mem_Difference] at h2
      exact ⟨h1, h2⟩
    | none =>
      rw [hSTnone he] at hu
      simp only [] at hu
      exact absurd hu (hnotremA u)
  · intro u hu
    cases he : (runRemovals removeFails (Difference current members)).2 with
    | some e =>
      rw [hSTsome e he] at hu
      simp at hu
      rw [hu] at he
      exact absurd he (hnotaddR u)
    | none =>
      rw [hSTnone he] at hu
      simp only [] at hu
      obtain ⟨h1, h2⟩ := hfailA u hu
      rw [mem_Difference] at h2
      refine ⟨h1, h2.1, h2.2, ?_⟩
      intro v hv
      by_contra hvf
      have hvf' : removeFails v = true := by
        cases hrf : removeFails v
        · exact absurd hrf hvf
        · rfl
      exact runRemovals_fail_of_mem removeFails (Difference current members) v hv hvf' he
  · intro hnd
    exact hnd.filter _
  · intro hnd
    exact hnd.filter _

/-- Claim C6 witness: the no-failure hypothesis discharged at
current=[a,b], desired=[b,c]: the trace is the removal of `a` followed by the
addition of `c`. -/
theorem SyncTeamMembers_reconciliation_witness :
    (SyncTeamMembers [("a"), ("b")] [("b"), ("c")]
        (fun _ => false) (fun _ => false)).1 =
      (Difference [("a"), ("b")] [("b"), ("c")]).map SyncCall.removeMember ++
        (Difference [("b"), ("c")] [("a"), ("b")]).map SyncCall.addMember :=
  (SyncTeamMembers_reconciliation [("a"), ("b")] [("b"), ("c")]
    (fun _ => false) (fun _ => false)).2.2.2.1 (by decide)

/-! ## Parent linking — `internal/team/utils.go`

`NewListOfTeamsFromPath` loads all teams and then runs a second pass matching
parents.  That second pass (lines 117-129) contains a `break` directly after
the first successful `t.ParentTeam = parent` assignment, so the loop over the
remaining teams stops as soon as one parent has been linked; a failed lookup
only logs a warning and continues.  The embedding reproduces that control flow
exactly; `ParentTeam` (a Go pointer) is modelled by the resolved parent's
name. -/

/-- The fields of `team.Team` read and written by the parent-linking pass. -/
structure GoTeam where
  Name : String
  Parent : String
  ParentTeam : Option String
  deriving DecidableEq

/-- Embedding of `FindTeamByName` from `internal/team/utils.go`: strip an
`@org/` prefix, then return the first team whose name matches verbatim or
under any `TeamTypes` prefix. -/
def findTeamByName (a : String) (teams : List GoTeam) : Option GoTeam :=
  let a2 := if a.data.headD ' ' = '@' then
      (((splitCh '/' a.data).map (fun l => (⟨l⟩ : String))).getD 1 ("")) else a
  teams.find? (fun b =>
    b.Name == a2 || teamTypes.any (fun t => (t ++ ("-") ++ b.Name) == a2))

/-- The parent-matching loop of `NewListOfTeamsFromPath`, walking the suffix
of the team list still to be processed while looking parents up in the full
list: on the first successful match it assigns `ParentTeam` and `break`s out
of the loop, leaving every remaining team untouched. -/
def linkParentsAux (all : List GoTeam) : List GoTeam → List GoTeam
  | [] => []
  | t :: rest =>
    if t.Parent ≠ ("") then
      match findTeamByName t.Parent all with
      | some parent => { t with ParentTeam := some parent.Name } :: rest
      | none => t :: linkParentsAux all rest
    else t :: linkParentsAux all rest

/-- The second pass of `NewListOfTeamsFromPath` over the loaded team list. -/
def linkParents (teams : List GoTeam) : List GoTeam :=
  linkParentsAux teams teams

/-- Claim C5 evaluation at the failing input: three loaded teams `a` and `b`
(both with parent `root`) and `root` itself.  The parent of `a` is linked and
the loop then `break`s, so `b.ParentTeam` stays unset even though
`FindTeamByName` resolves `root` for it. -/
theorem linkParents_stops_after_first_match :
    linkParents
        [⟨("a"), ("root"), none⟩, ⟨("b"), ("root"), none⟩, ⟨("root"), (""), none⟩] =
      [⟨("a"), ("root"), some ("root")⟩, ⟨("b"), ("root"), none⟩,
        ⟨("root"), (""), none⟩] ∧
    findTeamByName ("root")
        [⟨("a"), ("root"), none⟩, ⟨("b"), ("root"), none⟩, ⟨("root"), (""), none⟩] =
      some ⟨("root"), (""), none⟩ := by
  constructor
  · decide
  · decide

/-! ## Membership cache — `UserMemberOfTeam` in `internal/ghapi/ghapi.go`

The package-level `userTeamCache` map is declared but never initialised:
`NewGithubClient` (line 292) runs `userCache = make(...)` only.  A Go nil map
reads as empty but panics on write, so the cache state is modelled as
`Option`: `none` is the nil map, writing to it raises the modelled panic
(`Except.error ()`).  The remote `ListTeamMembers` call is abstracted as the
`listTeamMembers` input. -/

/-- Association-list core of the `map[string][]string` team cache. -/
def cacheGet (m : List (String × List String)) (k : String) : Option (List String) :=
  match m with
  | [] => none
  | p :: rest => if p.1 == k then some p.2 else cacheGet rest k

/-- Update-or-insert on the team cache contents. -/
def cacheSet (m : List (String × List String)) (k : String) (v : List String) :
    List (String × List String) :=
  match m with
  | [] => [(k, v)]
  | p :: rest => if p.1 == k then (k, v) :: rest else p :: cacheSet rest k v

/-- Reading a possibly-nil Go map: a nil map behaves as empty. -/
def nilMapRead (c : Option (List (String × List String))) (k : String) :
    Option (List String) :=
  match c with
  | none => none
  | some m => cacheGet m k

/-- Writing a possibly-nil Go map: assignment to an entry of a nil map is a
runtime panic, modelled as `Except.error ()`. -/
def nilMapWrite (c : Option (List (String × List String))) (k : String)
    (v : List String) : Except Unit (Option (List (String × List String))) :=
  match c with
  | none => Except.error ()
  | some m => Except.ok (some (cacheSet m k v))

/-- The `userTeamCache` state right after `NewGithubClient`: the declaration
`var userTeamCache map[string][]string` leaves it nil and `NewGithubClient`
initialises only `userCache`. -/
def newClientUserTeamCache : Option (List (String × List String)) := none

/-- Embedding of `(*GithubClient).UserMemberOfTeam` from
`internal/ghapi/ghapi.go` (lines 936-966): answer from the cache when the
username has an entry; otherwise list the team members (a listing error is
swallowed and reported as non-membership with a nil error), cache the team
under every member, and answer from the refreshed cache.  The result carries
the returned `(bool, error)` pair and the post-call cache state. -/
def UserMemberOfTeam (cache : Option (List (String × List String)))
    (listTeamMembers : Except String (List String)) (username team : String) :
    Except Unit ((Bool × Option String) × Option (List (String × List String))) :=
  match nilMapRead cache username with
  | some teams => Except.ok ((teams.contains team, none), cache)
  | none =>
    match listTeamMembers with
    | Except.error _ => Except.ok ((false, none), cache)
    | Except.ok members => do
      let cache2 ← members.foldlM (fun c m =>
        nilMapWrite c m ((nilMapRead c m).getD [] ++ [team])) cache
      match nilMapRead cache2 username with
      | some teams => Except.ok ((teams.contains team, none), cache2)
      | none => Except.ok ((false, none), cache2)

/-- Claim C10 evaluation at the failing input: on a fresh client the first
successful members listing panics while caching (`userTeamCache` is still the
nil map), instead of caching the answer; with an initialised cache the same
call would have returned membership with a nil error and a populated cache,
and a failed listing is indeed swallowed as `(false, nil)`. -/
theorem UserMemberOfTeam_nil_cache_panics :
    UserMemberOfTeam newClientUserTeamCache (Except.ok [("alice")])
        ("alice") ("@unikraft/maintainers") = Except.error () ∧
    UserMemberOfTeam (some []) (Except.ok [("alice")])
        ("alice") ("@unikraft/maintainers") =
      Except.ok ((true, none), some [(("alice"), [("@unikraft/maintainers")])]) ∧
    UserMemberOfTeam newClientUserTeamCache (Except.error ("boom"))
        ("alice") ("@unikraft/maintainers") =
      Except.ok ((false, none), newClientUserTeamCache) := by
  refine ⟨rfl, ?_, rfl⟩
  rfl

/-! ## Mergeability evaluator — `SatisfiesMergeRequirements` in
`internal/ghpr`

The pull request, its issue comments and its formal reviews are inputs (the
GitHub client fetches them in the source); the third-party regex engine
(`getParams`, which returns one binding per named capture group of a pattern
matched against a body, or nothing when the pattern does not match) and the
cached team-membership lookup (`memberOf`) are oracle parameters. -/

/-- The `mergableOptions` record of `internal/ghpr/ghpr_option.go` (without
the embedded client). -/
structure MergableOptions where
  approverComments : List String
  approverTeams : List String
  approveStates : List String
  ignoreLabels : List String
  ignoreStates : List String
  labels : List String
  minApprovals : Int
  minReviews : Int
  noConflicts : Bool
  noDraft : Bool
  noRespectAssignees : Bool
  noRespectReviewers : Bool
  reviewerComments : List String
  reviewerTeams : List String
  reviewStates : List String
  states : List String

/-- The literal `mergableOptions` value built at the top of
`SatisfiesMergeRequirements`: `minApprovals: 1, minReviews: 1`, every other
field left at its zero value. -/
def baseMergableOptions : MergableOptions where
  approverComments := []
  approverTeams := []
  approveStates := []
  ignoreLabels := []
  ignoreStates := []
  labels := []
  minApprovals := 1
  minReviews := 1
  noConflicts := false
  noDraft := false
  noRespectAssignees := false
  noRespectReviewers := false
  reviewerComments := []
  reviewerTeams := []
  reviewStates := []
  states := []

/-- `WithMinApprovals` from `ghpr_option.go`. -/
def WithMinApprovals (n : Int) (opts : MergableOptions) : MergableOptions :=
  { opts with minApprovals := n }

/-- `WithMinReviews` from `ghpr_option.go`. -/
def WithMinReviews (n : Int) (opts : MergableOptions) : MergableOptions :=
  { opts with minReviews := n }

/-- `WithNoConflicts` from `ghpr_option.go`. -/
def WithNoConflicts (b : Bool) (opts : MergableOptions) : MergableOptions :=
  { opts with noConflicts := b }

/-- `WithNoDraft` from `ghpr_option.go` (lines 151-156): it records the
require-non-draft request in the `noDraft` field — which no other code ever
reads. -/
def WithNoDraft (b : Bool) (opts : MergableOptions) : MergableOptions :=
  { opts with noDraft := b }

/-- `WithStates` from `ghpr_option.go`. -/
def WithStates (xs : List String) (opts : MergableOptions) : MergableOptions :=
  { opts with states := opts.states ++ xs }

/-- `WithIgnoreStates` from `ghpr_option.go`. -/
def WithIgnoreStates (xs : List String) (opts : MergableOptions) : MergableOptions :=
  { opts with ignoreStates := opts.ignoreStates ++ xs }

/-- `WithApproverComments` from `ghpr_option.go`. -/
def WithApproverComments (xs : List String) (opts : MergableOptions) : MergableOptions :=
  { opts with approverComments := opts.approverComments ++ xs }

/-- `WithReviewerComments` from `ghpr_option.go`. -/
def WithReviewerComments (xs : List String) (opts : MergableOptions) : MergableOptions :=
  { opts with reviewerComments := opts.reviewerComments ++ xs }

/-- `WithLabels` from `ghpr_option.go`. -/
def WithLabels (xs : List String) (opts : MergableOptions) : MergableOptions :=
  { opts with labels := opts.labels ++ xs }

/-- `WithIgnoreLabels` from `ghpr_option.go`. -/
def WithIgnoreLabels (xs : List String) (opts : MergableOptions) : MergableOptions :=
  { opts with ignoreLabels := opts.ignoreLabels ++ xs }

/-- Folding the caller's option functions over the base options, as the
`for _, opt := range opts` loop does. -/
def buildMergableOptions (opts : List (MergableOptions → MergableOptions)) :
    MergableOptions :=
  opts.foldl (fun m o => o m) baseMergableOptions

/-- The default approver-comment pattern installed when none is configured. -/
def defaultApproverComment : String := ("Approved-by: (?P<approved_by>.*>)")

/-- The default reviewer-comment pattern installed when none is configured. -/
def defaultReviewerComment : String := ("Reviewed-by: (?P<reviewed_by>.*>)")

/-- The two pattern-defaulting steps at the top of
`SatisfiesMergeRequirements`. -/
def patternDefaults (m : MergableOptions) : MergableOptions :=
  let m1 := if m.approverComments.isEmpty then
      { m with approverComments := [defaultApproverComment] } else m
  if m1.reviewerComments.isEmpty then
    { m1 with reviewerComments := [defaultReviewerComment] } else m1

/-- The fields of the fetched `github.PullRequest` that the evaluator reads
(labels as their names, assignees as their logins). -/
structure GoPullRequest where
  state : String
  labels : List String
  mergeable : Bool
  draft : Bool
  assignees : List String

/-- An issue comment as read by the evaluator. -/
structure IssueComment where
  body : String
  userLogin : String

/-- A formal review as read by the evaluator. -/
structure PullRequestReview where
  body : String
  userLogin : String
  state : String

/-- `strings.ToLower`. -/
def lowerStr (s : String) : String := ⟨s.data.map Char.toLower⟩

/-- Embedding of `(*mergableOptions).requestsState`: with no configured
states only `open` is accepted; ignored states veto. -/
def requestsState (opts : MergableOptions) (state : String) : Bool :=
  let ret := if opts.states.isEmpty then state == ("open")
    else opts.states.any (fun s => s == state)
  if opts.ignoreStates.any (fun s => s == state) then false else ret

/-- Embedding of `(*mergableOptions).requestsApproveState`. -/
def requestsApproveState (opts : MergableOptions) (state : String) : Bool :=
  if opts.approveStates.isEmpty then true
  else opts.approveStates.any (fun s => lowerStr state == lowerStr s)

/-- Embedding of `(*mergableOptions).requestsReviewState`. -/
def requestsReviewState (opts : MergableOptions) (state : String) : Bool :=
  if opts.reviewStates.isEmpty then true
  else opts.reviewStates.any (fun s => lowerStr state == lowerStr s)

/-- Embedding of `(*mergableOptions).requestsLabels`. -/
def requestsLabels (opts : MergableOptions) (labels : List String) : Bool :=
  let ret := if opts.labels.isEmpty then true
    else opts.labels.any (fun rl => labels.any (fun rr => rl == rr))
  if opts.ignoreLabels.any (fun rl => labels.any (fun rr => rl == rr)) then false
  else ret

/-- `matches[k] = v` on the Go match map: later patterns overwrite earlier
bindings of the same capture name. -/
def matchesAdd (m : List (String × String)) (k v : String) :
    List (String × String) :=
  match m with
  | [] => [(k, v)]
  | p :: rest => if p.1 == k then (k, v) :: rest else p :: matchesAdd rest k v

/-- The pattern loop shared by `requestsApproverRegex` and
`requestsReviewerRegex`: merge the named captures of every pattern against
the body. -/
def getParamsAll (getParams : String → String → List (String × String))
    (patterns : List String) (body : String) : List (String × String) :=
  patterns.foldl (fun acc c =>
    (getParams c body).foldl (fun a kv => matchesAdd a kv.1 kv.2) acc) []

/-- Embedding of `(*mergableOptions).requestsApproverRegex`. -/
def requestsApproverRegex (getParams : String → String → List (String × String))
    (opts : MergableOptions) (comment : String) : Bool × List (String × String) :=
  if opts.approverComments.isEmpty then (true, [])
  else
    let ms := getParamsAll getParams opts.approverComments comment
    (!ms.isEmpty, ms)

/-- Embedding of `(*mergableOptions).requestsReviewerRegex`. -/
def requestsReviewerRegex (getParams : String → String → List (String × String))
    (opts : MergableOptions) (comment : String) : Bool × List (String × String) :=
  if opts.reviewerComments.isEmpty then (true, [])
  else
    let ms := getParamsAll getParams opts.reviewerComments comment
    (!ms.isEmpty, ms)

/-- Embedding of `(*mergableOptions).requestsApproverTeam`: unless assignees
are disrespected, a PR assignee qualifies; otherwise membership in one of the
approver teams is required. -/
def requestsApproverTeam (memberOf : String → String → Bool)
    (opts : MergableOptions) (pull : GoPullRequest) (username : String) : Bool :=
  (if !opts.noRespectAssignees then pull.assignees.any (fun a => username == a)
   else false) ||
  opts.approverTeams.any (fun t => memberOf username t)

/-- Embedding of `(*mergableOptions).requestsReviewerTeam`: everyone
qualifies unless `noRespectReviewers` is set, in which case membership in a
reviewer team is required. -/
def requestsReviewerTeam (memberOf : String → String → Bool)
    (opts : MergableOptions) (username : String) : Bool :=
  if !opts.noRespectReviewers then true
  else opts.reviewerTeams.any (fun t => memberOf username t)

/-- `res[k] = append(res[k], v)` (with implicit slice creation) on the result
map of named captures. -/
def resAdd (res : List (String × List String)) (k v : String) :
    List (String × List String) :=
  match res with
  | [] => [(k, [v])]
  | p :: rest => if p.1 == k then (p.1, p.2 ++ [v]) :: rest else p :: resAdd rest k v

/-- The `for k, v := range matches` accumulation: record every capture in the
result map and bump the counter once per capture name. -/
def resAccumulate (ms : List (String × String))
    (res : List (String × List String)) (counter : Int) :
    List (String × List String) × Int :=
  ms.foldl (fun p kv => (resAdd p.1 kv.1 kv.2, p.2 + 1)) (res, counter)

/-- The reviewer-regex half of one comment-loop iteration. -/
def commentReviewerPart (getParams : String → String → List (String × String))
    (memberOf : String → String → Bool) (mopts : MergableOptions)
    (acc : List (String × List String) × Int × Int) (c : IssueComment) :
    List (String × List String) × Int × Int :=
  let r := requestsReviewerRegex getParams mopts c.body
  if r.1 && requestsReviewerTeam memberOf mopts c.userLogin then
    let p := resAccumulate r.2 acc.1 acc.2.2
    (p.1, acc.2.1, p.2)
  else acc

/-- One iteration of the comment loop of `SatisfiesMergeRequirements`.  The
`continue` after a failed `requestsApproveState("comment")` check skips the
reviewer half for that comment as well. -/
def commentStep (getParams : String → String → List (String × String))
    (memberOf : String → String → Bool) (mopts : MergableOptions)
    (pull : GoPullRequest) (acc : List (String × List String) × Int × Int)
    (c : IssueComment) : List (String × List String) × Int × Int :=
  let a := requestsApproverRegex getParams mopts c.body
  if a.1 && requestsApproverTeam memberOf mopts pull c.userLogin then
    if !requestsApproveState mopts ("comment") then acc
    else
      let p := resAccumulate a.2 acc.1 acc.2.1
      commentReviewerPart getParams memberOf mopts (p.1, p.2, acc.2.2) c
  else commentReviewerPart getParams memberOf mopts acc c

/-- One iteration of the review loop of `SatisfiesMergeRequirements`: like a
comment, but approve/review state filters test the review's own status, and
each `continue` just moves to the next review. -/
def reviewStep (getParams : String → String → List (String × String))
    (memberOf : String → String → Bool) (mopts : MergableOptions)
    (pull : GoPullRequest) (acc : List (String × List String) × Int × Int)
    (r : PullRequestReview) : List (String × List String) × Int × Int :=
  let afterApprover :=
    let a := requestsApproverRegex getParams mopts r.body
    if a.1 && requestsApproverTeam memberOf mopts pull r.userLogin then
      if !requestsApproveState mopts r.state then none
      else
        let p := resAccumulate a.2 acc.1 acc.2.1
        some (p.1, p.2, acc.2.2)
    else some acc
  match afterApprover with
  | none => acc
  | some acc2 =>
    let rr := requestsReviewerRegex getParams mopts r.body
    if rr.1 && requestsReviewerTeam memberOf mopts r.userLogin then
      if !requestsReviewState mopts r.state then acc2
      else
        let p := resAccumulate rr.2 acc2.1 acc2.2.2
        (p.1, acc2.2.1, p.2)
    else acc2

/-- The structured forms of the error returns of
`SatisfiesMergeRequirements`. -/
inductive MergeError where
  | stateMismatch (got : String)
  | labelsMismatch
  | hasConflicts
  | isDraft
  | notEnoughApprovalsOrReviews (approvals minRequiredApprovals reviews minRequiredReviews : Int)
  deriving DecidableEq

/-- Embedding of `(*PullRequest).SatisfiesMergeRequirements`: build the
options, default the comment patterns, run the state/label/conflict/draft
gates (the draft gate in the source is the unconditional `if *pull.Draft`),
scan comments then reviews, and compare the accumulated counters with the
configured minima. -/
def SatisfiesMergeRequirements
    (getParams : String → String → List (String × String))
    (memberOf : String → String → Bool)
    (opts : List (MergableOptions → MergableOptions))
    (pull : GoPullRequest) (comments : List IssueComment)
    (reviews : List PullRequestReview) :
    Except MergeError (List (String × List String)) :=
  let mopts := patternDefaults (buildMergableOptions opts)
  if !requestsState mopts pull.state then
    Except.error (MergeError.stateMismatch pull.state)
  else if !requestsLabels mopts pull.labels then
    Except.error MergeError.labelsMismatch
  else if mopts.noConflicts && !pull.mergeable then
    Except.error MergeError.hasConflicts
  else if pull.draft then
    Except.error MergeError.isDraft
  else
    let acc1 := comments.foldl (commentStep getParams memberOf mopts pull)
      (([], 0, 0) : List (String × List String) × Int × Int)
    let acc := reviews.foldl (reviewStep getParams memberOf mopts pull) acc1
    if acc.2.1 < mopts.minApprovals || acc.2.2 < mopts.minReviews then
      Except.error (MergeError.notEnoughApprovalsOrReviews
        acc.2.1 mopts.minApprovals acc.2.2 mopts.minReviews)
    else Except.ok acc.1

/-- Claim C1 evaluation at the failing input: an otherwise-mergeable draft
pull request is rejected with the draft-state reason even though the policy
never set `noDraft` (which defaults to false and is also rejected when
explicitly passed as false) — the source's draft check is unconditional and
the `noDraft` option field is never read. -/
theorem SatisfiesMergeRequirements_draft_rejected_without_noDraft :
    (buildMergableOptions []).noDraft = false ∧
    SatisfiesMergeRequirements (fun _ _ => []) (fun _ _ => false) []
        ⟨("open"), [], true, true, []⟩ [] [] = Except.error MergeError.isDraft ∧
    (buildMergableOptions [WithNoDraft false]).noDraft = false ∧
    SatisfiesMergeRequirements (fun _ _ => []) (fun _ _ => false) [WithNoDraft false]
        ⟨("open"), [], true, true, []⟩ [] [] = Except.error MergeError.isDraft :=
  ⟨rfl, rfl, rfl, rfl⟩

theorem patternDefaults_states (m : MergableOptions) :
    (patternDefaults m).states = m.states ∧
    (patternDefaults m).ignoreStates = m.ignoreStates := by
  unfold patternDefaults
  by_cases h1 : m.approverComments.isEmpty <;> simp only [h1] <;>
    simp <;> split <;> simp

/-- Claim C7: with no configured allowed states and no ignored states the
state gate accepts exactly the state `open`, and a pull request in state
`closed` always fails `SatisfiesMergeRequirements` with the state-mismatch
reason, whatever its comments and reviews and whatever the regex and
membership oracles answer. -/
theorem SatisfiesMergeRequirements_closed_state_mismatch
    (opts : List (MergableOptions → MergableOptions))
    (hs : (buildMergableOptions opts).states = [])
    (hi : (buildMergableOptions opts).ignoreStates = []) :
    (∀ s : String, requestsState (buildMergableOptions opts) s = (s == ("open"))) ∧
    (∀ (getParams : String → String → List (String × String))
        (memberOf : String → String → Bool) (pull : GoPullRequest),
      pull.state = ("closed") →
      ∀ (comments : List IssueComment) (reviews : List PullRequestReview),
        SatisfiesMergeRequirements getParams memberOf opts pull comments reviews =
          Except.error (MergeError.stateMismatch ("closed"))) := by
  constructor
  · intro s
    unfold requestsState
    rw [hs, hi]
    simp
  · intro getParams memberOf pull hstate comments reviews
    have hps := patternDefaults_states (buildMergableOptions opts)
    have hrs : requestsState (patternDefaults (buildMergableOptions opts))
        pull.state = false := by
      unfold requestsState
      rw [hps.1, hs, hps.2, hi, hstate]
      simp
    rw [hstate] at hrs
    unfold SatisfiesMergeRequirements
    simp [hrs, hstate]

/-- Claim C7 witness: the state hypothesis discharged at a concrete closed
pull request under the default (empty) option list. -/
theorem SatisfiesMergeRequirements_closed_state_mismatch_witness :
    SatisfiesMergeRequirements (fun _ _ => []) (fun _ _ => false) []
        ⟨("closed"), [], true, false, []⟩ [] [] =
      Except.error (MergeError.stateMismatch ("closed")) :=
  (SatisfiesMergeRequirements_closed_state_mismatch [] rfl rfl).2
    (fun _ _ => []) (fun _ _ => false) ⟨("closed"), [], true, false, []⟩ rfl [] []

/-- Claim C3: for a pull request that passes the state/label/conflict/draft
gates, two distinct comments matching the (default) approver pattern with one
named capture each, both authored by qualifying approvers (here PR
assignees), satisfy `minApprovals = 2` (review minimum met via
`minReviews = 0`) and the two captures are extracted; with only the first
such comment the evaluation fails citing 1 approval out of the required 2. -/
theorem SatisfiesMergeRequirements_min_approvals
    (getParams : String → String → List (String × String))
    (memberOf : String → String → Bool) (a1 a2 b1 b2 v1 v2 : String)
    (h1 : getParams defaultApproverComment b1 = [(("approved_by"), v1)])
    (h2 : getParams defaultApproverComment b2 = [(("approved_by"), v2)])
    (h3 : getParams defaultReviewerComment b1 = [])
    (h4 : getParams defaultReviewerComment b2 = []) :
    SatisfiesMergeRequirements getParams memberOf
        [WithMinApprovals 2, WithMinReviews 0]
        ⟨("open"), [], true, false, [a1, a2]⟩ [⟨b1, a1⟩, ⟨b2, a2⟩] [] =
      Except.ok [(("approved_by"), [v1, v2])] ∧
    SatisfiesMergeRequirements getParams memberOf
        [WithMinApprovals 2, WithMinReviews 0]
        ⟨("open"), [], true, false, [a1, a2]⟩ [⟨b1, a1⟩] [] =
      Except.error (MergeError.notEnoughApprovalsOrReviews 1 2 0 0) := by
  constructor <;>
    simp [SatisfiesMergeRequirements, buildMergableOptions, baseMergableOptions,
      WithMinApprovals, WithMinReviews, patternDefaults, requestsState,
      requestsLabels, commentStep, commentReviewerPart, requestsApproverRegex,
      requestsReviewerRegex, requestsApproverTeam, requestsReviewerTeam,
      requestsApproveState, getParamsAll, resAccumulate, resAdd, matchesAdd,
      h1, h2, h3, h4]

/-- Claim C3 witness: the capture-oracle hypotheses discharged at concrete
Approved-by comments from the two assignees alice and bob. -/
theorem SatisfiesMergeRequirements_min_approvals_witness :
    SatisfiesMergeRequirements
        (fun pat body =>
          if pat == defaultApproverComment &&
              body == ("Approved-by: Alice <alice@x>") then
            [(("approved_by"), ("Alice <alice@x>"))]
          else if pat == defaultApproverComment &&
              body == ("Approved-by: Bob <bob@x>") then
            [(("approved_by"), ("Bob <bob@x>"))]
          else [])
        (fun _ _ => false) [WithMinApprovals 2, WithMinReviews 0]
        ⟨("open"), [], true, false, [("alice"), ("bob")]⟩
        [⟨("Approved-by: Alice <alice@x>"), ("alice")⟩,
          ⟨("Approved-by: Bob <bob@x>"), ("bob")⟩] [] =
      Except.ok [(("approved_by"), [("Alice <alice@x>"), ("Bob <bob@x>")])] :=
  (SatisfiesMergeRequirements_min_approvals _ (fun _ _ => false)
    ("alice") ("bob") ("Approved-by: Alice <alice@x>") ("Approved-by: Bob <bob@x>")
    ("Alice <alice@x>") ("Bob <bob@x>")
    (by decide) (by decide) (by decide) (by decide)).1

end Governance
